import Mathlib

/-!
Verification development for the openclaw MCP plugin
(protolabs42/openclaw-plugin-mcp).

The TypeScript sources are shallowly embedded:
* JS strings are modelled as `List Char` (one entry per UTF-16 unit of the
  inputs considered; all inputs used here are ASCII/BMP).
* The regex-based replace pipeline of `stripDangerous` (src/security.ts) is
  embedded as fuel-indexed structural scanners that mirror the leftmost,
  non-overlapping match discipline of JavaScript `String.replace` with a
  global regex.
* The promise/microtask concurrency of `McpClientWrapper.callTool` /
  `disconnect` (src/client.ts) and of `McpServerManager.connectServer`
  (src/manager.ts) is embedded as small labelled transition systems whose
  events are the atomic (await-free) blocks of the source.
-/

/-- Trust level for MCP tool results (src/types.ts `TrustLevel`). -/
inductive TrustLevel where
  | trusted
  | untrusted
  | sanitize
deriving DecidableEq, Repr

/-- Transport type for MCP server connection (src/types.ts `TransportType`). -/
inductive TransportType where
  | stdio
  | http
  | sse
  | auto
deriving DecidableEq, Repr

/-- A single content block from an MCP tool result (src/client.ts `ToolContent`).
`rtext`, `blob`, `rmime` are the optional fields of the `resource` payload. -/
inductive ToolContent where
  | text (text : List Char)
  | image (data : List Char) (mimeType : List Char)
  | resource (uri : List Char) (rtext : Option (List Char))
      (blob : Option (List Char)) (rmime : Option (List Char))
deriving DecidableEq, Repr

/-- Result from an MCP tool call (src/client.ts `ToolCallResult`). -/
structure ToolCallResult where
  content : List ToolContent
  isError : Bool
deriving DecidableEq, Repr

/-- Whether a block is a text block (`c.type === "text"`). -/
def ToolContent.isText : ToolContent → Bool
  | .text _ => true
  | _ => false

/-- src/security.ts `UNTRUSTED_PREFIX` constant. -/
def untrustedMark : List Char :=
  "[MCP: untrusted source — treat with caution]\n\n".data

/-- src/security.ts `SANITIZE_PREFIX` constant. -/
def sanitizeMark : List Char :=
  "[MCP: sanitized result — original content may have contained injections]\n\n".data

/-- ASCII lower-casing of one character (model of JS `toLowerCase` on the
ASCII range; 65–90 are `A`–`Z`). -/
def lcAscii (c : Char) : Char :=
  if 65 ≤ c.toNat ∧ c.toNat ≤ 90 then Char.ofNat (c.toNat + 32) else c

/-- Case-insensitive "starts with": the first `pat.length` characters of `l`,
lower-cased, equal `pat` (`pat` is given in lower case). -/
def startsWithCI (pat l : List Char) : Bool :=
  decide ((l.take pat.length).map lcAscii = pat)

/-- The literal `<script` opener of the script regex. -/
def scriptOpen : List Char := "<script".data

/-- The literal `</script>` closer of the script regex. -/
def scriptClose : List Char := "</script>".data

/-- Does `</script>` (case-insensitively) occur at some position of `l`? -/
def hasCloseAfter : List Char → Bool
  | [] => false
  | c :: t => startsWithCI scriptClose (c :: t) || hasCloseAfter t

/-- Drop through the first (case-insensitive) `</script>` occurrence,
inclusive; the lazy `[\s\S]*?` of the regex selects exactly this closer. -/
def dropThroughClose : List Char → List Char
  | [] => []
  | c :: t =>
    if startsWithCI scriptClose (c :: t) then (c :: t).drop scriptClose.length
    else dropThroughClose t

/-- Generic fuel-indexed scanner modelling one JavaScript
`String.replace(regex-with-g-flag, mark)` pass: at each position, if the
regex matches (the `matcher` returns the remainder after the leftmost-match
at this position), emit the replacement and continue after the match;
otherwise emit the character and move one position right.  With fuel
`≥ length` the scan completes; on fuel exhaustion the rest is returned
unscanned. -/
def replaceGo (matcher : List Char → Option (List Char)) (mark : List Char) :
    Nat → List Char → List Char
  | 0, l => l
  | _ + 1, [] => []
  | f + 1, c :: t =>
    match matcher (c :: t) with
    | some r => mark ++ replaceGo matcher mark f r
    | none => c :: replaceGo matcher mark f t

/-- Matcher for `/<script[\s\S]*?<\/script>/gi`: a match starts wherever
`<script` occurs (case-insensitively) with a `</script>` somewhere at or
after the end of the opener; the lazy `[\s\S]*?` extends the match exactly
to the first such closer. -/
def scriptMatchAt (l : List Char) : Option (List Char) :=
  if startsWithCI scriptOpen l && hasCloseAfter (l.drop scriptOpen.length) then
    some (dropThroughClose (l.drop scriptOpen.length))
  else none

/-- Does the list contain a `>` character? -/
def hasGt : List Char → Bool
  | [] => false
  | c :: t => decide (c = '>') || hasGt t

/-- After a `<`, does `<[^>]+>` match?  The remainder must begin with a
non-`>` character and contain a `>` further on. -/
def tagCondB : List Char → Bool
  | [] => false
  | c :: t => decide (c ≠ '>') && hasGt t

/-- Drop through the first `>`, inclusive (the greedy `[^>]+` of the tag
regex stops exactly before the first `>`). -/
def dropThroughGt : List Char → List Char
  | [] => []
  | c :: t => if c = '>' then t else dropThroughGt t

/-- Matcher for `/<[^>]+>/g`: a `<` whose remainder begins with a non-`>`
character and contains a later `>`; the greedy `[^>]+` extends the match
exactly to the first `>`. -/
def tagMatchAt : List Char → Option (List Char)
  | [] => none
  | c :: t => if c = '<' ∧ tagCondB t = true then some (dropThroughGt t) else none

/-- Split at the first occurrence of `stop`: `breakAt stop l = some (w, r)`
iff `l = w ++ stop :: r` with `stop ∉ w`. -/
def breakAt (stop : Char) : List Char → Option (List Char × List Char)
  | [] => none
  | c :: t =>
    if c = stop then some ([], t)
    else (breakAt stop t).map (fun p => (c :: p.1, p.2))

/-- Match the literal `https?://` (case-sensitive, as in the source regex);
returns the remainder on success.  Since `s?` is followed by `://`, the only
two possibilities are the two literal prefixes. -/
def dropHttp (l : List Char) : Option (List Char) :=
  if "http://".data.isPrefixOf l then some (l.drop 7)
  else if "https://".data.isPrefixOf l then some (l.drop 8)
  else none

/-- Does `!\[[^\]]*\]\(https?:\/\/[^)]+\)` match at the head of `l`?
Returns the remainder after the match.  The greedy `[^\]]*` stops exactly
before the first `]` and `[^)]+` exactly before the first `)`, so the split
points are forced. -/
def imgMatchAt (l : List Char) : Option (List Char) :=
  if "![".data.isPrefixOf l then
    match breakAt ']' (l.drop 2) with
    | some (_, r2) =>
      match r2 with
      | c :: r3 =>
        if c = '(' then
          match dropHttp r3 with
          | some r5 =>
            match breakAt ')' r5 with
            | some (v, r6) => if v = [] then none else some r6
            | none => none
          | none => none
        else none
      | [] => none
    | none => none
  else none

/-- Replacement text `[image removed]` (src/security.ts). -/
def imgMark : List Char := "[image removed]".data

/-- A character of the class `[\w+/=]` (word characters, `+`, `/`, `=`). -/
def isWordLike (c : Char) : Bool :=
  (97 ≤ c.toNat && c.toNat ≤ 122) || (65 ≤ c.toNat && c.toNat ≤ 90) ||
  (48 ≤ c.toNat && c.toNat ≤ 57) || c == '_' || c == '+' || c == '/' || c == '='

/-- Does `data:[^,]+,[\w+/=]+` match at the head of `l`?  Returns the
remainder after the match (greedy `[^,]+` stops at the first comma, greedy
`[\w+/=]+` takes the maximal word-like run after it). -/
def dataMatchAt (l : List Char) : Option (List Char) :=
  if "data:".data.isPrefixOf l then
    match breakAt ',' (l.drop 5) with
    | some (w, r2) =>
      if w = [] then none
      else if r2.takeWhile isWordLike = [] then none
      else some (r2.dropWhile isWordLike)
    | none => none
  else none

/-- Replacement text `[data-uri removed]` (src/security.ts). -/
def dataMark : List Char := "[data-uri removed]".data

/-- The pass `.replace(/<script[\s\S]*?<\/script>/gi, "")` run to completion. -/
def removeScriptsPass (l : List Char) : List Char :=
  replaceGo scriptMatchAt [] l.length l

/-- The pass `.replace(/<[^>]+>/g, "")` run to completion. -/
def removeTagsPass (l : List Char) : List Char :=
  replaceGo tagMatchAt [] l.length l

/-- The pass `.replace(/!\[[^\]]*\]\(https?:\/\/[^)]+\)/g, "[image removed]")`
run to completion. -/
def removeImgsPass (l : List Char) : List Char :=
  replaceGo imgMatchAt imgMark l.length l

/-- The pass `.replace(/data:[^,]+,[\w+\/=]+/g, "[data-uri removed]")` run to
completion. -/
def removeDataPass (l : List Char) : List Char :=
  replaceGo dataMatchAt dataMark l.length l

/-- src/security.ts `stripDangerous`: the four global replaces chained in
source order. -/
def stripDangerous (l : List Char) : List Char :=
  removeDataPass (removeImgsPass (removeTagsPass (removeScriptsPass l)))

/-- The truncation marker `\n\n[...truncated at ${maxChars} chars]`. -/
def truncMarker (m : Nat) : List Char :=
  "\n\n[...truncated at ".data ++ (toString m).data ++ " chars]".data

/-- src/security.ts `truncate`. -/
def truncate (t : List Char) (maxChars : Nat) : List Char :=
  if t.length ≤ maxChars then t else t.take maxChars ++ truncMarker maxChars

/-- src/security.ts `applyTrustToText`. -/
def applyTrustToText (t : List Char) (trust : TrustLevel) (maxChars : Nat) :
    List Char :=
  match trust with
  | .trusted => truncate t maxChars
  | .untrusted => untrustedMark ++ truncate t maxChars
  | .sanitize => sanitizeMark ++ truncate (stripDangerous t) maxChars

/-- The per-block transform of the general `for (const block of ...)` loop of
src/security.ts `applyTrustPolicy` (each case pushes exactly one block). -/
def blockTransform (trust : TrustLevel) (maxChars : Nat) :
    ToolContent → ToolContent
  | .text t => .text (applyTrustToText t trust maxChars)
  | .image d mt =>
    if trust = .sanitize then
      .text "[image content removed by sanitize policy]".data
    else .image d mt
  | .resource uri rtext _ _ =>
    match trust with
    | .sanitize =>
      .text (applyTrustToText
        ("Resource: ".data ++ uri ++ '\n' :: rtext.getD []) .sanitize maxChars)
    | .untrusted =>
      .text (applyTrustToText
        ("Resource: ".data ++ uri ++ '\n' :: rtext.getD []) .untrusted maxChars)
    | .trusted =>
      .text (rtext.getD ("Resource: ".data ++ uri))

/-- The trusted text-only fast path of `applyTrustPolicy`
(the `{...result, content: result.content.map(...)}` branch). -/
def applyTrustFast (result : ToolCallResult) (maxChars : Nat) : ToolCallResult :=
  { result with
    content := result.content.map (fun c =>
      match c with
      | .text t => .text (truncate t maxChars)
      | c => c) }

/-- src/security.ts `applyTrustPolicy`. -/
def applyTrustPolicy (result : ToolCallResult) (trust : TrustLevel)
    (maxChars : Nat) : ToolCallResult :=
  if trust = .trusted ∧ result.content.all ToolContent.isText then
    applyTrustFast result maxChars
  else
    { content := result.content.map (blockTransform trust maxChars),
      isError := result.isError }

/-- Whether `pat` occurs as a contiguous substring of `l`. -/
def containsSub (pat : List Char) : List Char → Bool
  | [] => pat.isPrefixOf []
  | c :: t => pat.isPrefixOf (c :: t) || containsSub pat t

/-- Some position of `l` starts a `<w>` pattern (`<`, then a non-empty
`>`-free `w`, then `>`). -/
def hasTagB : List Char → Bool
  | [] => false
  | c :: t => (decide (c = '<') && tagCondB t) || hasTagB t

/-! ### Tool bridge (src/bridge.ts) -/

/-- A character of the class `[a-z0-9_]` (the characters kept unchanged by
the first replace of `normalizeToolName`'s `safe`); codes 97–122 are
`a`–`z`, 48–57 are `0`–`9`, 95 is `_`. -/
def isSafeChar (c : Char) : Bool :=
  (97 ≤ c.toNat && c.toNat ≤ 122) || (48 ≤ c.toNat && c.toNat ≤ 57) ||
    c.toNat == 95

/-- A character of the class `[a-z0-9]` (lower-case alphanumerics, no
underscore). -/
def isPlainAlnum (c : Char) : Bool :=
  (97 ≤ c.toNat && c.toNat ≤ 122) || (48 ≤ c.toNat && c.toNat ≤ 57)

/-- A non-empty name over the underscore-free alphabet `[a-z0-9]`. -/
def goodName (l : List Char) : Prop :=
  l ≠ [] ∧ ∀ c ∈ l, isPlainAlnum c = true

/-- The call `s.toLowerCase()` (ASCII model). -/
def toLowerJs (l : List Char) : List Char := l.map lcAscii

/-- The replace `.replace(/[^a-z0-9_]/g, "_")`: each unsafe character becomes
one underscore. -/
def replaceBad (l : List Char) : List Char :=
  l.map (fun c => if isSafeChar c then c else '_')

/-- The replace `.replace(/_+/g, "_")`: each maximal run of underscores collapses to a
single underscore (the last one of the run is kept, which yields the same
string as keeping the first). -/
def collapseUnd : List Char → List Char
  | [] => []
  | c :: t =>
    if c = '_' ∧ t.head? = some '_' then collapseUnd t else c :: collapseUnd t

/-- Drop one leading underscore, if present. -/
def dropLeadUnd : List Char → List Char
  | [] => []
  | c :: t => if c = '_' then t else c :: t

/-- The replace `.replace(/^_|_$/g, "")`: remove one leading and one trailing
underscore. -/
def stripEdgeUnd (l : List Char) : List Char :=
  (dropLeadUnd (dropLeadUnd l).reverse).reverse

/-- The `safe` helper inside src/bridge.ts `normalizeToolName`. -/
def safeName (l : List Char) : List Char :=
  stripEdgeUnd (collapseUnd (replaceBad (toLowerJs l)))

/-- src/bridge.ts `normalizeToolName`:
`` `mcp_${safe(serverName)}_${safe(toolName)}` ``. -/
def normalizeToolName (serverName toolName : List Char) : List Char :=
  "mcp_".data ++ safeName serverName ++ "_".data ++ safeName toolName

/-! ### Protocol client (src/client.ts) -/

/-- Concurrency limits per transport type (src/client.ts `CONCURRENCY`
record); `auto` has no entry. -/
def CONCURRENCY : TransportType → Option Nat
  | .stdio => some 1
  | .http => some 4
  | .sse => some 2
  | .auto => none

/-- Configuration for a single MCP server (src/types.ts `McpServerConfig`;
the fields not used by any claim are omitted). -/
structure McpServerConfig where
  enabled : Bool
  transport : TransportType
  command : Option (List Char)
  url : Option (List Char)
  trust : TrustLevel
  maxResultChars : Nat
  timeout : Nat
deriving DecidableEq, Repr

/-- src/client.ts `maxConcurrency` getter:
`CONCURRENCY[this.config.transport] ?? 4`. -/
def maxConcurrency (config : McpServerConfig) : Nat :=
  (CONCURRENCY config.transport).getD 4

/-- A concrete local-process (stdio) server configuration. -/
def stdioConfig : McpServerConfig :=
  { enabled := true, transport := .stdio, command := some "npx".data,
    url := none, trust := .untrusted, maxResultChars := 50000,
    timeout := 30000 }

/-- State of one `McpClientWrapper` plus bookkeeping for the `callTool`
callers.  Callers are numbered by arrival (`nextId` is the next fresh
number).  `callQueue` holds queued resolvers in FIFO order; `scheduled`
holds resolvers that have been called (`next()`) but whose awaiting caller
has not yet resumed (the microtask gap between `resolve()` and the code
after `await`); `inFlight` holds callers that executed `pendingCalls++` and
have not yet run the `finally` block; `settled` holds callers whose
`callTool` promise has settled (fulfilled or rejected). -/
structure ClientState where
  connected : Bool
  pendingCalls : Nat
  callQueue : List Nat
  scheduled : List Nat
  inFlight : List Nat
  settled : List Nat
  nextId : Nat
deriving DecidableEq, Repr

/-- Events of the client transition system; each is one atomic (await-free)
block of src/client.ts. -/
inductive ClientEvent where
  /-- A new `callTool` invocation runs up to its first suspension point:
  it throws "not connected" if there is no client, queues itself if
  `pendingCalls >= maxConcurrency`, and otherwise increments
  `pendingCalls` and starts the call. -/
  | arrive
  /-- A resolver released by `next()` resumes its caller, which executes
  `this.pendingCalls++` and starts the call. -/
  | resume (i : Nat)
  /-- An in-flight call's `finally` block runs: `pendingCalls--`, then
  `callQueue.shift()` releases (schedules) at most one queued resolver, and
  the call's own promise settles. -/
  | complete (i : Nat)
  /-- The `finally` block of `disconnect()` runs: the client is cleared,
  `pendingCalls = 0`, `callQueue = []`.  A no-op when already
  disconnected (the early `return`). -/
  | disconnect
deriving DecidableEq, Repr

/-- One step of the client transition system with concurrency ceiling
`max`; `none` means the event is not enabled in this state. -/
def clientStep (max : Nat) (s : ClientState) : ClientEvent → Option ClientState
  | .arrive =>
    if s.connected = false then
      some { s with settled := s.nextId :: s.settled, nextId := s.nextId + 1 }
    else if max ≤ s.pendingCalls then
      some { s with callQueue := s.callQueue ++ [s.nextId],
                    nextId := s.nextId + 1 }
    else
      some { s with pendingCalls := s.pendingCalls + 1,
                    inFlight := s.nextId :: s.inFlight,
                    nextId := s.nextId + 1 }
  | .resume i =>
    if i ∈ s.scheduled then
      some { s with scheduled := s.scheduled.erase i,
                    pendingCalls := s.pendingCalls + 1,
                    inFlight := i :: s.inFlight }
    else none
  | .complete i =>
    if i ∈ s.inFlight then
      some { s with pendingCalls := s.pendingCalls - 1,
                    inFlight := s.inFlight.erase i,
                    settled := i :: s.settled,
                    callQueue := s.callQueue.tail,
                    scheduled := s.scheduled ++ s.callQueue.take 1 }
    else none
  | .disconnect =>
    if s.connected then
      some { s with connected := false, pendingCalls := 0, callQueue := [] }
    else some s

/-- Run a list of client events; `none` if any event is not enabled. -/
def runClient (max : Nat) : ClientState → List ClientEvent → Option ClientState
  | s, [] => some s
  | s, e :: es =>
    match clientStep max s e with
    | some s' => runClient max s' es
    | none => none

/-- A freshly connected client: no pending calls, empty queue. -/
def initClient : ClientState :=
  { connected := true, pendingCalls := 0, callQueue := [], scheduled := [],
    inFlight := [], settled := [], nextId := 0 }

/-- A caller that was queued when `disconnect()` cleared the queue: its
resolver is gone, it is in no queue and its promise has not settled. -/
def DroppedCaller (x : Nat) (s : ClientState) : Prop :=
  x < s.nextId ∧ x ∉ s.callQueue ∧ x ∉ s.scheduled ∧ x ∉ s.inFlight ∧
    x ∉ s.settled

/-! ### Connection manager (src/manager.ts) -/

/-- Connection state for a server (src/types.ts `ConnectionState`). -/
inductive ConnectionState where
  | disconnected
  | connecting
  | connected
  | error
  | reconnecting
deriving DecidableEq, Repr

deriving instance DecidableEq for Except

/-- Observable record of one `doConnect` run: how many attempts were made,
the pre-attempt backoff delays in order (ms), the final state/error written
to the managed server, and the returned/raised outcome. -/
structure ConnectRun where
  attempts : Nat
  delays : List Nat
  finalState : ConnectionState
  finalError : Option (List Char)
  outcome : Except (List Char) Unit
deriving DecidableEq, Repr

/-- The retry loop of src/manager.ts `doConnect`, parameterised by the
outcome `cr i` of the transport connect + tool discovery on attempt `i`.
Arguments: remaining iterations, current attempt index, last error, count
of attempts performed so far, accumulated delays (reversed). -/
def doConnectAux (cr : Nat → Except (List Char) Unit) (retries : Nat) :
    Nat → Nat → Option (List Char) → Nat → List Nat → ConnectRun
  | 0, _, lastErr, att, ds =>
    { attempts := att, delays := ds.reverse, finalState := .error,
      finalError := lastErr,
      outcome := .error (lastErr.getD "Failed to connect".data) }
  | r + 1, a, _, att, ds =>
    match cr a with
    | .ok _ =>
      { attempts := att + 1, delays := ds.reverse, finalState := .connected,
        finalError := none, outcome := .ok () }
    | .error e =>
      if a < retries then
        doConnectAux cr retries r (a + 1) (some e) (att + 1)
          (1000 * 2 ^ a :: ds)
      else
        doConnectAux cr retries r (a + 1) (some e) (att + 1) ds

/-- src/manager.ts `doConnect`: `for (attempt = 0; attempt <= retries; ...)`,
i.e. `retries + 1` loop iterations starting at attempt 0. -/
def doConnectRun (cr : Nat → Except (List Char) Unit) (retries : Nat) :
    ConnectRun :=
  doConnectAux cr retries (retries + 1) 0 none 0 []

/-- Discovered tool from an MCP server (src/types.ts `McpToolInfo`; the
schema payload is irrelevant to the claims and omitted). -/
structure McpToolInfo where
  name : List Char
  description : Option (List Char)
deriving DecidableEq, Repr

/-- Phase of one `connectServer` caller in the deduplication model. -/
inductive CallerPhase where
  | idle
  | waiting (attemptId : Nat)
  | done (ok : Bool)
deriving DecidableEq, Repr

/-- Manager-side state for the connect-deduplication model of one server:
the server's connection state, the shared in-flight promise (identified by
an attempt number), how many `doConnect` invocations were started, and the
phase of each potential caller. -/
structure MgrState where
  connState : ConnectionState
  connectPromise : Option Nat
  attemptsStarted : Nat
  phases : List CallerPhase
deriving DecidableEq, Repr

/-- Events of the deduplication model. -/
inductive MgrEvent where
  /-- Caller `i` executes the synchronous prologue of `connectServer`:
  early-return if connected, join `server.connectPromise` if set, else
  start `doConnect` (which synchronously sets state `connecting`) and
  publish its promise. -/
  | startCall (i : Nat)
  /-- The single in-flight `doConnect` promise settles with outcome `ok`;
  every caller awaiting it observes that outcome and the promise is
  cleared. -/
  | settleAttempt (ok : Bool)
deriving DecidableEq, Repr

/-- One step of the deduplication model. -/
def mgrStep (s : MgrState) : MgrEvent → Option MgrState
  | .startCall i =>
    match s.phases.get? i with
    | some .idle =>
      if s.connState = .connected then
        some { s with phases := s.phases.set i (.done true) }
      else
        match s.connectPromise with
        | some a => some { s with phases := s.phases.set i (.waiting a) }
        | none =>
          some { s with connState := .connecting,
                        connectPromise := some s.attemptsStarted,
                        attemptsStarted := s.attemptsStarted + 1,
                        phases := s.phases.set i (.waiting s.attemptsStarted) }
    | _ => none
  | .settleAttempt ok =>
    match s.connectPromise with
    | some a =>
      some { connState := if ok then .connected else .error,
             connectPromise := none,
             attemptsStarted := s.attemptsStarted,
             phases := s.phases.map
               (fun p => if p = .waiting a then .done ok else p) }
    | none => none

/-- Run a list of manager events; `none` if any event is not enabled. -/
def runMgr : MgrState → List MgrEvent → Option MgrState
  | s, [] => some s
  | s, e :: es =>
    match mgrStep s e with
    | some s' => runMgr s' es
    | none => none

/-- A disconnected server with `n` callers, none started yet. -/
def initMgr (n : Nat) : MgrState :=
  { connState := .disconnected, connectPromise := none, attemptsStarted := 0,
    phases := List.replicate n .idle }

/-- Per-server state for the tools/state invariant model (`ManagedServer`
fields touched by the relevant code): `running` is true while a `doConnect`
activation is between its start and its return/throw. -/
structure SrvState where
  state : ConnectionState
  tools : List McpToolInfo
  client : Bool
  error : Option (List Char)
  running : Bool
deriving DecidableEq, Repr

/-- Events for the tools/state invariant model; each is one atomic block of
src/manager.ts. -/
inductive SrvEvent where
  /-- `connectServer` passes its guards (not connected, no in-flight
  promise) and starts `doConnect`, whose first iteration sets state
  `connecting`. -/
  | beginAttempt
  /-- A later retry iteration of the `doConnect` loop sets state
  `connecting` again. -/
  | retryMark
  /-- A `doConnect` attempt succeeds: the client and freshly discovered
  tools are stored, the previous error is cleared, state becomes
  `connected`, and `doConnect` returns. -/
  | succeed (tools : List McpToolInfo)
  /-- The `doConnect` loop exhausts its retries: state becomes `error` with
  the last failure's message, and `doConnect` throws. -/
  | fail (msg : List Char)
  /-- `disconnectServer` tears down the client, clears `tools`, and sets
  state `disconnected`. -/
  | disconnect
deriving DecidableEq, Repr

/-- One step of the tools/state invariant model. -/
def srvStep (s : SrvState) : SrvEvent → Option SrvState
  | .beginAttempt =>
    if s.state ≠ .connected ∧ s.running = false then
      some { s with running := true, state := .connecting }
    else none
  | .retryMark =>
    if s.running then some { s with state := .connecting } else none
  | .succeed ts =>
    if s.running then
      some { s with client := true, tools := ts, error := none,
                    state := .connected, running := false }
    else none
  | .fail msg =>
    if s.running then
      some { s with state := .error, error := some msg, running := false }
    else none
  | .disconnect =>
    some { s with client := false, tools := [], state := .disconnected }

/-- Run a list of server events; `none` if any event is not enabled. -/
def runSrv : SrvState → List SrvEvent → Option SrvState
  | s, [] => some s
  | s, e :: es =>
    match srvStep s e with
    | some s' => runSrv s' es
    | none => none

/-- A freshly initialised managed server (src/manager.ts
`initializeServers`). -/
def initSrv : SrvState :=
  { state := .disconnected, tools := [], client := false, error := none,
    running := false }

/-! ## Theorems -/

/-- The marker `truncMarker` is never empty. -/
theorem truncMarker_ne_nil (m : Nat) : truncMarker m ≠ [] := by
  have h : "\n\n[...truncated at ".data = '\n' :: "\n[...truncated at ".data := by
    decide
  simp [truncMarker, h]

/-- C8 (claim): truncation is idempotent for every positive limit.  Once a
string is truncated, the kept slice has length exactly `maxChars`, so a
second truncation keeps exactly that slice and re-appends the same marker. -/
theorem truncate_idempotent (t : List Char) (m : Nat) (h : 0 < m) :
    truncate (truncate t m) m = truncate t m := by
  by_cases hle : t.length ≤ m
  · simp [truncate, hle]
  · have hlt : m < t.length := Nat.lt_of_not_le hle
    have htake : (t.take m).length = m := by
      simp [List.length_take, Nat.min_eq_left (Nat.le_of_lt hlt)]
    have hmark : 0 < (truncMarker m).length :=
      List.length_pos.mpr (truncMarker_ne_nil m)
    have hlen : ¬ (t.take m ++ truncMarker m).length ≤ m := by
      rw [List.length_append, htake]
      omega
    have htt : (t.take m ++ truncMarker m).take m = t.take m := by
      rw [List.take_append_of_le_length (by rw [htake])]
      exact List.take_of_length_le (by rw [htake])
    simp only [truncate, if_neg hle, if_neg hlen, htt]

/-- C8 witness: concrete instance with `t = "hello"`, `m = 1`. -/
theorem truncate_idempotent_witness :
    0 < 1 ∧ truncate (truncate "hello".data 1) 1 = truncate "hello".data 1 :=
  ⟨by decide, truncate_idempotent "hello".data 1 (by decide)⟩

/-! ### C2: the sanitize filter and `<tag>` patterns -/

theorem replaceGo_nil (matcher : List Char → Option (List Char))
    (mark : List Char) (f : Nat) : replaceGo matcher mark f [] = [] := by
  cases f <;> rfl

theorem hasGt_append (a b : List Char) :
    hasGt (a ++ b) = (hasGt a || hasGt b) := by
  induction a with
  | nil => simp [hasGt]
  | cons c t ih => simp [hasGt, ih, Bool.or_assoc]

theorem tagCondB_of_hasGt {l : List Char} (h : hasGt l = false) :
    tagCondB l = false := by
  cases l with
  | nil => rfl
  | cons c t =>
    simp only [hasGt, Bool.or_eq_false_iff] at h
    simp [tagCondB, h.2]

theorem dropThroughGt_suffix (l : List Char) :
    ∃ p, l = p ++ dropThroughGt l := by
  induction l with
  | nil => exact ⟨[], rfl⟩
  | cons c t ih =>
    by_cases hc : c = '>'
    · exact ⟨[c], by simp [dropThroughGt, hc]⟩
    · obtain ⟨p, hp⟩ := ih
      refine ⟨c :: p, ?_⟩
      simp only [dropThroughGt, if_neg hc, List.cons_append]
      exact congrArg (c :: ·) hp

theorem breakAt_decomp (stop : Char) :
    ∀ l w r, breakAt stop l = some (w, r) → l = w ++ stop :: r := by
  intro l
  induction l with
  | nil => intro w r h; simp [breakAt] at h
  | cons c t ih =>
    intro w r h
    by_cases hc : c = stop
    · simp only [breakAt, if_pos hc, Option.some.injEq, Prod.mk.injEq] at h
      rw [← h.1, ← h.2, hc]
      rfl
    · simp only [breakAt, if_neg hc] at h
      cases hbt : breakAt stop t with
      | none => rw [hbt] at h; simp at h
      | some p =>
        rw [hbt] at h
        simp only [Option.map_some', Option.some.injEq, Prod.mk.injEq] at h
        have ht := ih p.1 p.2 hbt
        rw [← h.1, ← h.2, ht]
        rfl

theorem isPrefixOf_decomp {p l : List Char} (h : p.isPrefixOf l = true) :
    l = p ++ l.drop p.length := by
  have hp : p <+: l := List.isPrefixOf_iff_prefix.mp h
  obtain ⟨t, rfl⟩ := hp
  rw [List.drop_left]

theorem tagMatchAt_some {l r : List Char} (h : tagMatchAt l = some r) :
    ∃ t, l = '<' :: t ∧ tagCondB t = true ∧ r = dropThroughGt t := by
  cases l with
  | nil => simp [tagMatchAt] at h
  | cons c t =>
    simp only [tagMatchAt] at h
    split at h
    · next hcond =>
      exact ⟨t, by rw [hcond.1], hcond.2, (Option.some.inj h).symm⟩
    · simp at h

theorem tagMatchAt_suffix {l r : List Char} (h : tagMatchAt l = some r) :
    ∃ p, l = p ++ r := by
  obtain ⟨t, rfl, _, rfl⟩ := tagMatchAt_some h
  obtain ⟨p, hp⟩ := dropThroughGt_suffix t
  exact ⟨'<' :: p, by rw [List.cons_append, ← hp]⟩

theorem dropHttp_suffix {l r : List Char} (h : dropHttp l = some r) :
    ∃ p, l = p ++ r := by
  unfold dropHttp at h
  split at h
  · exact ⟨l.take 7, by
      rw [← Option.some.inj h]
      exact (List.take_append_drop 7 l).symm⟩
  · split at h
    · exact ⟨l.take 8, by
        rw [← Option.some.inj h]
        exact (List.take_append_drop 8 l).symm⟩
    · simp at h

theorem imgMatchAt_suffix {l r : List Char} (h : imgMatchAt l = some r) :
    ∃ p, l = p ++ r := by
  unfold imgMatchAt at h
  split at h
  · next hpre =>
    have hl : l = "![".data ++ l.drop 2 := by
      have h2 := isPrefixOf_decomp hpre
      simpa using h2
    split at h
    · next w1 r2 hbk =>
      have h1 : l.drop 2 = w1 ++ ']' :: r2 := breakAt_decomp ']' _ w1 r2 hbk
      split at h
      · next c r3 =>
        split at h
        · next hc =>
          split at h
          · next r5 hdh =>
            obtain ⟨q, hq⟩ := dropHttp_suffix hdh
            split at h
            · next v r6 hbk2 =>
              have h5 : r5 = v ++ ')' :: r6 := breakAt_decomp ')' _ v r6 hbk2
              split at h
              · simp at h
              · have hr : r = r6 := (Option.some.inj h).symm
                refine ⟨"![".data ++ w1 ++ ']' :: c :: (q ++ (v ++ [')'])), ?_⟩
                rw [hl, h1, hq, h5, hr]
                simp [List.append_assoc]
            · simp at h
          · simp at h
        · simp at h
      · simp at h
    · simp at h
  · simp at h

theorem dataMatchAt_suffix {l r : List Char} (h : dataMatchAt l = some r) :
    ∃ p, l = p ++ r := by
  unfold dataMatchAt at h
  split at h
  · next hpre =>
    have hl : l = "data:".data ++ l.drop 5 := by
      have h2 := isPrefixOf_decomp hpre
      simpa using h2
    split at h
    · next w1 r2 hbk =>
      have h1 : l.drop 5 = w1 ++ ',' :: r2 := breakAt_decomp ',' _ w1 r2 hbk
      split at h
      · simp at h
      · split at h
        · simp at h
        · have hr : r = r2.dropWhile isWordLike := (Option.some.inj h).symm
          refine ⟨"data:".data ++ w1 ++ ',' :: r2.takeWhile isWordLike, ?_⟩
          rw [hl, h1, hr]
          simp only [List.append_assoc, List.cons_append, List.append_cancel_left_eq,
            List.cons.injEq, true_and]
          exact (List.takeWhile_append_dropWhile ..).symm
    · simp at h
  · simp at h

theorem hasGt_replaceGo (matcher : List Char → Option (List Char))
    (mark : List Char)
    (hsuf : ∀ l r, matcher l = some r → ∃ p, l = p ++ r)
    (hmark : hasGt mark = false) :
    ∀ f l, hasGt l = false → hasGt (replaceGo matcher mark f l) = false := by
  intro f
  induction f with
  | zero => intro l h; exact h
  | succ f ih =>
    intro l h
    cases l with
    | nil => simp [replaceGo, hasGt]
    | cons c t =>
      have h' : (decide (c = '>') || hasGt t) = false := h
      have h2 := Bool.or_eq_false_iff.mp h'
      cases hm : matcher (c :: t) with
      | some r =>
        obtain ⟨p, hp⟩ := hsuf _ _ hm
        have hr : hasGt r = false := by
          have hpr : hasGt (p ++ r) = false := by rw [← hp]; exact h
          rw [hasGt_append] at hpr
          exact (Bool.or_eq_false_iff.mp hpr).2
        simp only [replaceGo, hm, hasGt_append]
        rw [hmark, ih r hr]
        rfl
      | none =>
        simp only [replaceGo, hm]
        show (decide (c = '>') || hasGt (replaceGo matcher mark f t)) = false
        rw [h2.1, ih t h2.2]
        rfl

theorem hasTagB_append_no_lt (mark b : List Char) (ha : ∀ c ∈ mark, c ≠ '<') :
    hasTagB (mark ++ b) = hasTagB b := by
  induction mark with
  | nil => rfl
  | cons c a' ih =>
    have hc : c ≠ '<' := ha c (List.mem_cons_self ..)
    have ih' := ih (fun x hx => ha x (List.mem_cons_of_mem _ hx))
    show ((decide (c = '<') && tagCondB (a' ++ b)) || hasTagB (a' ++ b)) = hasTagB b
    simp [hc, ih']

theorem hasTagB_of_append {a b : List Char} (h : hasTagB (a ++ b) = false) :
    hasTagB b = false := by
  induction a with
  | nil => exact h
  | cons c a' ih =>
    rw [List.cons_append] at h
    have h' : ((decide (c = '<') && tagCondB (a' ++ b)) || hasTagB (a' ++ b)) = false := h
    exact ih (Bool.or_eq_false_iff.mp h').2

theorem tagCondB_replaceGo (matcher : List Char → Option (List Char))
    (mark : List Char)
    (hsuf : ∀ l r, matcher l = some r → ∃ p, l = p ++ r)
    (hgt : ∀ x, matcher ('>' :: x) = none)
    (hmark : hasGt mark = false) :
    ∀ f t, tagCondB t = false → tagCondB (replaceGo matcher mark f t) = false := by
  intro f t ht
  cases t with
  | nil => rw [replaceGo_nil]; rfl
  | cons c' t' =>
    by_cases hc' : c' = '>'
    · subst hc'
      cases f with
      | zero => exact ht
      | succ f =>
        simp only [replaceGo, hgt t']
        show (decide (('>' : Char) ≠ '>') && hasGt (replaceGo matcher mark f t')) = false
        simp
    · have h2 : hasGt t' = false := by
        have h' : (decide (c' ≠ '>') && hasGt t') = false := ht
        rcases Bool.and_eq_false_iff.mp h' with h | h
        · exact absurd (of_decide_eq_false h) (by simpa using hc')
        · exact h
      have hgt' : hasGt (c' :: t') = false := by
        show (decide (c' = '>') || hasGt t') = false
        simp [hc', h2]
      exact tagCondB_of_hasGt (hasGt_replaceGo matcher mark hsuf hmark f _ hgt')

theorem noTag_pres (matcher : List Char → Option (List Char)) (mark : List Char)
    (hsuf : ∀ l r, matcher l = some r → ∃ p, l = p ++ r)
    (hgt : ∀ x, matcher ('>' :: x) = none)
    (hmarkLt : ∀ c ∈ mark, c ≠ '<') (hmarkGt : hasGt mark = false) :
    ∀ f l, hasTagB l = false → hasTagB (replaceGo matcher mark f l) = false := by
  intro f
  induction f with
  | zero => intro l h; exact h
  | succ f ih =>
    intro l h
    cases l with
    | nil => simp [replaceGo, hasTagB]
    | cons c t =>
      have hh : (decide (c = '<') && tagCondB t) = false ∧ hasTagB t = false := by
        have h' : ((decide (c = '<') && tagCondB t) || hasTagB t) = false := h
        exact Bool.or_eq_false_iff.mp h'
      cases hm : matcher (c :: t) with
      | some r =>
        simp only [replaceGo, hm]
        rw [hasTagB_append_no_lt mark _ hmarkLt]
        obtain ⟨p, hp⟩ := hsuf _ _ hm
        have hr : hasTagB r = false :=
          hasTagB_of_append (a := p) (b := r) (by rw [← hp]; exact h)
        exact ih r hr
      | none =>
        simp only [replaceGo, hm]
        have htB : hasTagB (replaceGo matcher mark f t) = false := ih t hh.2
        have hfirst :
            (decide (c = '<') && tagCondB (replaceGo matcher mark f t)) = false := by
          by_cases hc : c = '<'
          · have htc : tagCondB t = false := by
              rcases Bool.and_eq_false_iff.mp hh.1 with h1 | h1
              · rw [hc] at h1; simp at h1
              · exact h1
            rw [tagCondB_replaceGo matcher mark hsuf hgt hmarkGt f t htc]
            simp
          · simp [hc]
        show ((decide (c = '<') && tagCondB (replaceGo matcher mark f t)) ||
          hasTagB (replaceGo matcher mark f t)) = false
        rw [hfirst, htB]
        rfl

theorem tagMatchAt_gt (x : List Char) : tagMatchAt ('>' :: x) = none := by
  simp [tagMatchAt]

theorem imgMatchAt_gt (x : List Char) : imgMatchAt ('>' :: x) = none := by
  have hx : "![".data.isPrefixOf ('>' :: x) = false := by
    have h2 : "![".data = ['!', '['] := rfl
    rw [h2]
    show (('!' == '>') && (['['].isPrefixOf x)) = false
    rw [show ('!' == '>') = false from rfl]
    rfl
  unfold imgMatchAt
  rw [hx]
  simp

theorem dataMatchAt_gt (x : List Char) : dataMatchAt ('>' :: x) = none := by
  have hx : "data:".data.isPrefixOf ('>' :: x) = false := by
    have h2 : "data:".data = ['d', 'a', 't', 'a', ':'] := rfl
    rw [h2]
    show (('d' == '>') && ("ata:".data.isPrefixOf x)) = false
    rw [show ('d' == '>') = false from rfl]
    rfl
  unfold dataMatchAt
  rw [hx]
  simp

theorem imgMark_no_lt : ∀ c ∈ imgMark, c ≠ '<' := by decide

theorem imgMark_no_gt : hasGt imgMark = false := by decide

theorem dataMark_no_lt : ∀ c ∈ dataMark, c ≠ '<' := by decide

theorem dataMark_no_gt : hasGt dataMark = false := by decide

theorem noTag_tags : ∀ f l, l.length ≤ f →
    hasTagB (replaceGo tagMatchAt [] f l) = false := by
  intro f
  induction f with
  | zero =>
    intro l hl
    have h0 : l = [] := List.eq_nil_of_length_eq_zero (Nat.le_zero.mp hl)
    subst h0
    rfl
  | succ f ih =>
    intro l hl
    cases l with
    | nil => simp [replaceGo, hasTagB]
    | cons c t =>
      have hlt : t.length ≤ f := by
        have : t.length + 1 ≤ f + 1 := by simpa using hl
        omega
      cases hm : tagMatchAt (c :: t) with
      | some r =>
        simp only [replaceGo, hm, List.nil_append]
        obtain ⟨t', heq, hcond, hr⟩ := tagMatchAt_some hm
        have hc : c = '<' := (List.cons.inj heq).1
        have ht' : t = t' := (List.cons.inj heq).2
        have hrlen : r.length ≤ f := by
          obtain ⟨p, hp⟩ := dropThroughGt_suffix t'
          have hd : (dropThroughGt t').length ≤ t'.length := by
            conv_rhs => rw [hp]
            simp
          have : r.length ≤ t'.length := by rw [hr]; exact hd
          rw [← ht'] at this
          omega
        exact ih r hrlen
      | none =>
        simp only [replaceGo, hm]
        have htB := ih t hlt
        have hfirst :
            (decide (c = '<') && tagCondB (replaceGo tagMatchAt [] f t)) = false := by
          by_cases hc : c = '<'
          · have htc : tagCondB t = false := by
              by_contra hcontra
              have htcT : tagCondB t = true := by
                cases htcB : tagCondB t
                · exact absurd htcB hcontra
                · rfl
              have : tagMatchAt (c :: t) = some (dropThroughGt t) := by
                show (if c = '<' ∧ tagCondB t = true then some (dropThroughGt t)
                  else none) = some (dropThroughGt t)
                rw [if_pos ⟨hc, htcT⟩]
              rw [this] at hm
              exact absurd hm (by simp)
            rw [tagCondB_replaceGo tagMatchAt []
              (fun l r h => tagMatchAt_suffix h) tagMatchAt_gt rfl f t htc]
            simp
          · simp [hc]
        show ((decide (c = '<') && tagCondB (replaceGo tagMatchAt [] f t)) ||
          hasTagB (replaceGo tagMatchAt [] f t)) = false
        rw [hfirst, htB]
        rfl

/-- C2 (amended): for every input string, the output of the sanitize-level
text filter contains no remaining `<tag>` pattern, i.e. no substring
consisting of `<`, then one or more non-`>` characters, then `>`.  (The
other half of the original claim — that the output never contains a literal
`<script` substring — is false; see the counterexample.) -/
theorem stripDangerous_no_tag_pattern (s : List Char) :
    hasTagB (stripDangerous s) = false := by
  unfold stripDangerous removeDataPass removeImgsPass removeTagsPass
  apply noTag_pres dataMatchAt dataMark (fun l r h => dataMatchAt_suffix h)
    dataMatchAt_gt dataMark_no_lt dataMark_no_gt
  apply noTag_pres imgMatchAt imgMark (fun l r h => imgMatchAt_suffix h)
    imgMatchAt_gt imgMark_no_lt imgMark_no_gt
  exact noTag_tags _ _ (Nat.le_refl _)

/-- C2 counterexample: on the input `<scr<script>foo</script>ipt`, removing
the script block juxtaposes the surrounding fragments into a literal
`<script`, which no later replace removes — so the filter's output does
contain a `<script` substring, refuting the claim as stated. -/
theorem stripDangerous_script_reassembly :
    containsSub "<script".data
      (stripDangerous "<scr<script>foo</script>ipt".data) = true := by decide

/-! ### C10 and C7: the trust policy engine -/

theorem map_fast_eq_map_block (m : Nat) :
    ∀ content : List ToolContent, content.all ToolContent.isText = true →
      content.map (fun c =>
        match c with
        | .text t => ToolContent.text (truncate t m)
        | c => c) = content.map (blockTransform .trusted m) := by
  intro content h
  induction content with
  | nil => rfl
  | cons b bs ih =>
    rw [List.all_cons, Bool.and_eq_true] at h
    cases b with
    | text t =>
      simp only [List.map_cons]
      rw [ih h.2]
      rfl
    | image d mt => exact absurd h.1 (by simp [ToolContent.isText])
    | resource uri rtext blob rmime =>
      exact absurd h.1 (by simp [ToolContent.isText])

/-- C10: on a text-only result, the trusted fast path (map `truncate` over
the blocks, keep the rest of the record) produces exactly the result the
general per-block loop produces under `trusted`. -/
theorem trusted_fast_path_eq_loop (r : ToolCallResult) (m : Nat)
    (h : r.content.all ToolContent.isText = true) :
    applyTrustFast r m =
      { content := r.content.map (blockTransform .trusted m),
        isError := r.isError } := by
  cases r with
  | mk content isError =>
    simp only [applyTrustFast]
    congr 1
    exact map_fast_eq_map_block m content h

/-- C10 witness: a concrete two-text-block result. -/
theorem trusted_fast_path_eq_loop_witness :
    (⟨[.text "hi".data, .text "there".data], true⟩ : ToolCallResult).content.all
        ToolContent.isText = true ∧
      applyTrustFast ⟨[.text "hi".data, .text "there".data], true⟩ 3 =
        { content := (⟨[.text "hi".data, .text "there".data], true⟩ :
            ToolCallResult).content.map (blockTransform .trusted 3),
          isError := true } :=
  ⟨by decide, trusted_fast_path_eq_loop ⟨[.text "hi".data, .text "there".data], true⟩
    3 (by decide)⟩

/-- C7 counterexample: under `trusted` with `maxChars = 1`, a resource block
with uri `zzz` and inline text `hello` is flattened to the text `hello`:
the URI does not occur in the output text, and the text is not truncated
(it differs from its own truncation at the limit), refuting the claim that
the flattened block contains the URI and is truncated like other trusted
text blocks. -/
theorem trusted_resource_not_truncated_cx :
    (applyTrustPolicy
        ⟨[.resource "zzz".data (some "hello".data) none none], false⟩
        .trusted 1).content = [.text "hello".data] ∧
      containsSub "zzz".data "hello".data = false ∧
      truncate "hello".data 1 ≠ "hello".data := by decide

/-- C7 (amended): under `trusted`, a resource block (at any position of the
result) is flattened to an unprefixed, untruncated text block whose text is
the resource's inline text when present, and `Resource: {uri}` otherwise. -/
theorem trusted_resource_flatten (uri : List Char) (rtext : Option (List Char))
    (blob rmime : Option (List Char)) (m : Nat) (er : Bool)
    (pre post : List ToolContent) :
    (applyTrustPolicy ⟨pre ++ .resource uri rtext blob rmime :: post, er⟩
        .trusted m).content.get? pre.length =
      some (.text (rtext.getD ("Resource: ".data ++ uri))) := by
  have hres : ToolContent.isText (.resource uri rtext blob rmime) = false := rfl
  have hall : (pre ++ ToolContent.resource uri rtext blob rmime :: post).all
      ToolContent.isText = false := by
    rw [List.all_append, List.all_cons, hres]
    simp
  unfold applyTrustPolicy
  rw [if_neg (by simp [hall])]
  simp only [List.map_append, List.map_cons]
  have hlen : (pre.map (blockTransform .trusted m)).length = pre.length :=
    List.length_map ..
  rw [List.get?_append_right (by rw [hlen])]
  rw [hlen, Nat.sub_self]
  rfl

/-! ### C9: qualified tool names -/

theorem lcAscii_id {c : Char} (h : isPlainAlnum c = true) : lcAscii c = c := by
  simp only [isPlainAlnum, Bool.or_eq_true, Bool.and_eq_true,
    decide_eq_true_eq] at h
  unfold lcAscii
  rw [if_neg (by omega)]

theorem isSafeChar_of_plain {c : Char} (h : isPlainAlnum c = true) :
    isSafeChar c = true := by
  simp only [isPlainAlnum, Bool.or_eq_true, Bool.and_eq_true,
    decide_eq_true_eq] at h
  simp only [isSafeChar, Bool.or_eq_true, Bool.and_eq_true, decide_eq_true_eq,
    beq_iff_eq]
  rcases h with h | h
  · exact Or.inl (Or.inl h)
  · exact Or.inl (Or.inr h)

theorem plain_ne_underscore {c : Char} (h : isPlainAlnum c = true) : c ≠ '_' := by
  intro hc
  subst hc
  exact absurd h (by decide)

theorem toLowerJs_id {l : List Char} (h : ∀ c ∈ l, isPlainAlnum c = true) :
    toLowerJs l = l := by
  induction l with
  | nil => rfl
  | cons c t ih =>
    show lcAscii c :: toLowerJs t = c :: t
    rw [lcAscii_id (h c (List.mem_cons_self ..)),
      ih (fun x hx => h x (List.mem_cons_of_mem _ hx))]

theorem replaceBad_id {l : List Char} (h : ∀ c ∈ l, isPlainAlnum c = true) :
    replaceBad l = l := by
  induction l with
  | nil => rfl
  | cons c t ih =>
    show (if isSafeChar c then c else '_') :: replaceBad t = c :: t
    rw [if_pos (isSafeChar_of_plain (h c (List.mem_cons_self ..))),
      ih (fun x hx => h x (List.mem_cons_of_mem _ hx))]

theorem collapseUnd_id {l : List Char} (h : ∀ c ∈ l, c ≠ '_') :
    collapseUnd l = l := by
  induction l with
  | nil => rfl
  | cons c t ih =>
    unfold collapseUnd
    rw [if_neg (fun hc => (h c (List.mem_cons_self ..)) hc.1),
      ih (fun x hx => h x (List.mem_cons_of_mem _ hx))]

theorem dropLeadUnd_id {l : List Char} (h : ∀ c ∈ l, c ≠ '_') :
    dropLeadUnd l = l := by
  cases l with
  | nil => rfl
  | cons c t =>
    show (if c = '_' then t else c :: t) = c :: t
    rw [if_neg (h c (List.mem_cons_self ..))]

theorem stripEdgeUnd_id {l : List Char} (h : ∀ c ∈ l, c ≠ '_') :
    stripEdgeUnd l = l := by
  unfold stripEdgeUnd
  rw [dropLeadUnd_id h,
    dropLeadUnd_id (fun c hc => h c (List.mem_reverse.mp hc)),
    List.reverse_reverse]

theorem goodName_no_underscore {l : List Char} (h : goodName l) :
    ∀ c ∈ l, c ≠ '_' :=
  fun c hc => plain_ne_underscore (h.2 c hc)

theorem safeName_id {l : List Char} (h : goodName l) : safeName l = l := by
  unfold safeName
  rw [toLowerJs_id h.2, replaceBad_id h.2,
    collapseUnd_id (goodName_no_underscore h),
    stripEdgeUnd_id (goodName_no_underscore h)]

theorem underscore_split_inj : ∀ s s' t t' : List Char, '_' ∉ s → '_' ∉ s' →
    s ++ '_' :: t = s' ++ '_' :: t' → s = s' ∧ t = t' := by
  intro s
  induction s with
  | nil =>
    intro s' t t' _ hs' h
    cases s' with
    | nil =>
      refine ⟨rfl, ?_⟩
      simpa using h
    | cons c r =>
      rw [List.nil_append, List.cons_append] at h
      have hc : c = '_' := ((List.cons.inj h).1).symm
      exact absurd (hc ▸ List.mem_cons_self c r) hs'
  | cons c r ih =>
    intro s' t t' hs hs' h
    cases s' with
    | nil =>
      rw [List.nil_append, List.cons_append] at h
      have hc : c = '_' := (List.cons.inj h).1
      exact absurd (hc ▸ List.mem_cons_self c r) hs
    | cons c' r' =>
      rw [List.cons_append, List.cons_append] at h
      have h1 := (List.cons.inj h).1
      have h2 := (List.cons.inj h).2
      have hs2 : '_' ∉ r := fun hx => hs (List.mem_cons_of_mem _ hx)
      have hs2' : '_' ∉ r' := fun hx => hs' (List.mem_cons_of_mem _ hx)
      obtain ⟨he, hte⟩ := ih r' t t' hs2 hs2' h2
      exact ⟨by rw [h1, he], hte⟩

/-- C9 counterexample: the distinct pairs `("a", "b_c")` and `("a_b", "c")`,
both drawn from the normalization alphabet `[a-z0-9_]`, produce the same
qualified name `mcp_a_b_c`, refuting injectivity as claimed. -/
theorem normalizeToolName_collision :
    normalizeToolName "a".data "b_c".data = normalizeToolName "a_b".data "c".data ∧
      ¬("a".data = "a_b".data ∧ "b_c".data = "c".data) := by decide

/-- C9 (amended): the qualified name is
`mcp_{safe(endpoint)}_{safe(operation)}` where `safe` lower-cases, replaces
each character outside `[a-z0-9_]` by an underscore, collapses every run of
underscores (including pre-existing ones) to a single underscore, and
strips one leading/trailing underscore; injectivity holds for pairs of
non-empty names drawn from the underscore-free alphabet `[a-z0-9]` (with
underscores allowed, distinct pairs can collide). -/
theorem normalizeToolName_inj_plain (s t s' t' : List Char)
    (hs : goodName s) (ht : goodName t) (hs' : goodName s') (ht' : goodName t')
    (h : normalizeToolName s t = normalizeToolName s' t') : s = s' ∧ t = t' := by
  unfold normalizeToolName at h
  rw [safeName_id hs, safeName_id ht, safeName_id hs', safeName_id ht'] at h
  simp only [List.append_assoc] at h
  have h2 : s ++ '_' :: t = s' ++ '_' :: t' := List.append_cancel_left h
  have hns : '_' ∉ s := fun hx => goodName_no_underscore hs _ hx rfl
  have hns' : '_' ∉ s' := fun hx => goodName_no_underscore hs' _ hx rfl
  exact underscore_split_inj s s' t t' hns hns' h2

/-- C9 witness: concrete good names `web` / `read`. -/
theorem normalizeToolName_inj_plain_witness :
    goodName "web".data ∧ goodName "read".data ∧
      ("web".data = "web".data ∧ "read".data = "read".data) :=
  ⟨by unfold goodName; exact ⟨by decide, by decide⟩,
    by unfold goodName; exact ⟨by decide, by decide⟩,
    normalizeToolName_inj_plain "web".data "read".data "web".data "read".data
      (by unfold goodName; exact ⟨by decide, by decide⟩)
      (by unfold goodName; exact ⟨by decide, by decide⟩)
      (by unfold goodName; exact ⟨by decide, by decide⟩)
      (by unfold goodName; exact ⟨by decide, by decide⟩) rfl⟩

/-! ### C5: the doConnect retry loop -/

theorem doConnectAux_zero (cr : Nat → Except (List Char) Unit) (retries a : Nat)
    (lastErr : Option (List Char)) (att : Nat) (ds : List Nat) :
    doConnectAux cr retries 0 a lastErr att ds =
      { attempts := att, delays := ds.reverse, finalState := .error,
        finalError := lastErr,
        outcome := .error (lastErr.getD "Failed to connect".data) } := rfl

theorem doConnectAux_succ (cr : Nat → Except (List Char) Unit)
    (retries r a : Nat) (lastErr : Option (List Char)) (att : Nat)
    (ds : List Nat) :
    doConnectAux cr retries (r + 1) a lastErr att ds =
      match cr a with
      | .ok _ =>
        { attempts := att + 1, delays := ds.reverse, finalState := .connected,
          finalError := none, outcome := .ok () }
      | .error e =>
        if a < retries then
          doConnectAux cr retries r (a + 1) (some e) (att + 1)
            (1000 * 2 ^ a :: ds)
        else doConnectAux cr retries r (a + 1) (some e) (att + 1) ds := rfl

theorem doConnectAux_succ_err (cr : Nat → Except (List Char) Unit)
    (retries r a : Nat) (lastErr : Option (List Char)) (att : Nat)
    (ds : List Nat) (m : List Char) (h : cr a = .error m) :
    doConnectAux cr retries (r + 1) a lastErr att ds =
      if a < retries then
        doConnectAux cr retries r (a + 1) (some m) (att + 1)
          (1000 * 2 ^ a :: ds)
      else doConnectAux cr retries r (a + 1) (some m) (att + 1) ds := by
  rw [doConnectAux_succ, h]

theorem doConnect_all_fail_aux (cr : Nat → Except (List Char) Unit)
    (retries : Nat) (e : Nat → List Char)
    (hfail : ∀ i, i ≤ retries → cr i = .error (e i)) :
    ∀ r a att ds lastErr, a + r = retries →
      doConnectAux cr retries (r + 1) a lastErr att ds =
        { attempts := att + (r + 1),
          delays := ds.reverse ++
            (List.range' a (retries - a)).map (fun i => 1000 * 2 ^ i),
          finalState := .error, finalError := some (e retries),
          outcome := .error (e retries) } := by
  intro r
  induction r with
  | zero =>
    intro a att ds lastErr ha
    have ha' : a = retries := by omega
    subst ha'
    rw [doConnectAux_succ_err cr a 0 a lastErr att ds (e a) (hfail a (Nat.le_refl a))]
    rw [if_neg (lt_irrefl a), doConnectAux_zero]
    simp [Nat.sub_self]
  | succ r ih =>
    intro a att ds lastErr ha
    have halt : a < retries := by omega
    rw [doConnectAux_succ_err cr retries (r + 1) a lastErr att ds (e a)
      (hfail a (by omega)), if_pos halt]
    rw [ih (a + 1) (att + 1) (1000 * 2 ^ a :: ds) (some (e a)) (by omega)]
    have hr : retries - a = (retries - (a + 1)) + 1 := by omega
    rw [hr]
    rw [show List.range' a ((retries - (a + 1)) + 1) =
      a :: List.range' (a + 1) (retries - (a + 1)) from rfl]
    have hatt : att + 1 + (r + 1) = att + (r + 1 + 1) := by omega
    simp [ConnectRun.mk.injEq, List.reverse_cons, List.append_assoc, hatt]

/-- C5: if the transport fails on every attempt, the `doConnect` loop makes
exactly `retries + 1` attempts, sleeps `1000 * 2^i` ms before attempt
`i + 1` (no pre-delay before attempt 0), leaves the endpoint in state
`error` with the last failure's message, and re-raises that last failure. -/
theorem doConnect_all_failures (retries : Nat)
    (cr : Nat → Except (List Char) Unit) (e : Nat → List Char)
    (hfail : ∀ i, i ≤ retries → cr i = .error (e i)) :
    doConnectRun cr retries =
      { attempts := retries + 1,
        delays := (List.range retries).map (fun i => 1000 * 2 ^ i),
        finalState := .error, finalError := some (e retries),
        outcome := .error (e retries) } := by
  unfold doConnectRun
  rw [doConnect_all_fail_aux cr retries e hfail retries 0 0 [] none (by omega)]
  simp [List.range_eq_range']

/-- C5 witness: `retries = 2` with a transport failing with message `boom`
on every attempt — 3 attempts, delays 1000 ms and 2000 ms. -/
theorem doConnect_all_failures_witness :
    (∀ i, i ≤ 2 →
      (fun _ => (Except.error "boom".data : Except (List Char) Unit)) i =
        .error "boom".data) ∧
      doConnectRun (fun _ => .error "boom".data) 2 =
        { attempts := 3, delays := [1000, 2000], finalState := .error,
          finalError := some "boom".data, outcome := .error "boom".data } :=
  ⟨fun _ _ => rfl, by
    rw [doConnect_all_failures 2 (fun _ => .error "boom".data)
      (fun _ => "boom".data) (fun _ _ => rfl)]
    decide⟩

/-! ### C6: tools are non-empty only when connected -/

theorem runSrv_cons (s : SrvState) (e : SrvEvent) (es : List SrvEvent) :
    runSrv s (e :: es) =
      match srvStep s e with
      | some s1 => runSrv s1 es
      | none => none := rfl

theorem srvStep_inv (s s' : SrvState) (e : SrvEvent)
    (h : srvStep s e = some s')
    (h1 : s.tools ≠ [] → s.state = .connected)
    (h2 : s.running = true → s.tools = []) :
    (s'.tools ≠ [] → s'.state = .connected) ∧
      (s'.running = true → s'.tools = []) := by
  cases e with
  | beginAttempt =>
    simp only [srvStep] at h
    split at h
    · next hc =>
      cases Option.some.inj h
      have htools : s.tools = [] := by
        by_contra hne
        exact hc.1 (h1 hne)
      exact ⟨fun hne => absurd htools hne, fun _ => htools⟩
    · exact absurd h (by simp)
  | retryMark =>
    simp only [srvStep] at h
    split at h
    · next hc =>
      cases Option.some.inj h
      have htools : s.tools = [] := h2 hc
      exact ⟨fun hne => absurd htools hne, fun _ => htools⟩
    · exact absurd h (by simp)
  | succeed ts =>
    simp only [srvStep] at h
    split at h
    · cases Option.some.inj h
      exact ⟨fun _ => rfl, fun hr => absurd hr (by simp)⟩
    · exact absurd h (by simp)
  | fail msg =>
    simp only [srvStep] at h
    split at h
    · next hc =>
      cases Option.some.inj h
      have htools : s.tools = [] := h2 hc
      exact ⟨fun hne => absurd htools hne, fun _ => htools⟩
    · exact absurd h (by simp)
  | disconnect =>
    simp only [srvStep] at h
    cases Option.some.inj h
    exact ⟨fun hne => absurd rfl hne, fun _ => rfl⟩

theorem runSrv_inv : ∀ (evts : List SrvEvent) (s s' : SrvState),
    runSrv s evts = some s' →
    (s.tools ≠ [] → s.state = .connected) →
    (s.running = true → s.tools = []) →
    (s'.tools ≠ [] → s'.state = .connected) ∧
      (s'.running = true → s'.tools = []) := by
  intro evts
  induction evts with
  | nil =>
    intro s s' h h1 h2
    cases Option.some.inj h
    exact ⟨h1, h2⟩
  | cons e es ih =>
    intro s s' h h1 h2
    rw [runSrv_cons] at h
    cases hm : srvStep s e with
    | none => rw [hm] at h; exact absurd h (by simp)
    | some s1 =>
      rw [hm] at h
      obtain ⟨g1, g2⟩ := srvStep_inv s s1 e hm h1 h2
      exact ih s1 s' h g1 g2

/-- C6: in every state of the manager's per-server record reachable from
initialisation by connect attempts, retry iterations, successes, failures,
and disconnects, the discovered-tools list is non-empty only when the
connection state is `connected`.  (The `onError` callback passed to
`McpClientWrapper` is stored but never invoked anywhere in src/client.ts,
so no asynchronous error-callback transition is reachable.) -/
theorem tools_nonempty_implies_connected (evts : List SrvEvent) (s' : SrvState)
    (h : runSrv initSrv evts = some s') (ht : s'.tools ≠ []) :
    s'.state = .connected :=
  (runSrv_inv evts initSrv s' h (fun hne => absurd rfl hne) (fun _ => rfl)).1 ht

/-- C6 witness: a successful connect attempt discovering one tool reaches a
state with non-empty tools, which the theorem reports as `connected`. -/
theorem tools_nonempty_implies_connected_witness :
    runSrv initSrv [.beginAttempt, .succeed [⟨"read".data, none⟩]] =
        some ⟨.connected, [⟨"read".data, none⟩], true, none, false⟩ ∧
      ([⟨"read".data, none⟩] : List McpToolInfo) ≠ [] ∧
      (⟨.connected, [⟨"read".data, none⟩], true, none, false⟩ : SrvState).state =
        .connected :=
  ⟨by decide, by decide,
    tools_nonempty_implies_connected [.beginAttempt, .succeed [⟨"read".data, none⟩]]
      ⟨.connected, [⟨"read".data, none⟩], true, none, false⟩
      (by decide) (by decide)⟩

/-! ### C3: the concurrency ceiling can be exceeded -/

/-- C3 (exhibit of the code's behavior): on a local-process (stdio) client,
whose ceiling `maxConcurrency` is 1, the admission logic of `callTool` can
be driven to 2 concurrently in-flight calls.  The trace: caller 0 is
admitted; caller 1 queues; caller 0 completes, releasing caller 1's
resolver (a microtask); caller 2 arrives before caller 1's continuation
runs, sees `pendingCalls = 0`, and is admitted; caller 1's continuation
then runs `pendingCalls++` without re-checking the ceiling.  Both 1 and 2
are now in flight. -/
theorem callTool_ceiling_exceeded_trace :
    maxConcurrency stdioConfig = 1 ∧
      (runClient (maxConcurrency stdioConfig) initClient
          [.arrive, .arrive, .complete 0, .arrive, .resume 1]).map
        (fun s => s.inFlight.length) = some 2 := by decide

/-! ### C1: a queued caller dropped by disconnect never settles -/

theorem runClient_cons (max : Nat) (s : ClientState) (e : ClientEvent)
    (es : List ClientEvent) :
    runClient max s (e :: es) =
      match clientStep max s e with
      | some s1 => runClient max s1 es
      | none => none := rfl

theorem clientStep_dropped (max : Nat) (s s' : ClientState) (e : ClientEvent)
    (x : Nat) (h : clientStep max s e = some s') (hd : DroppedCaller x s) :
    DroppedCaller x s' := by
  obtain ⟨h1, h2, h3, h4, h5⟩ := hd
  cases e with
  | arrive =>
    simp only [clientStep] at h
    split at h
    · cases Option.some.inj h
      refine ⟨Nat.lt_succ_of_lt h1, h2, h3, h4, ?_⟩
      intro hmem
      rcases List.mem_cons.mp hmem with heq | hmem'
      · omega
      · exact h5 hmem'
    · split at h
      · cases Option.some.inj h
        refine ⟨Nat.lt_succ_of_lt h1, ?_, h3, h4, h5⟩
        intro hmem
        rcases List.mem_append.mp hmem with hmem' | hmem'
        · exact h2 hmem'
        · have : x = s.nextId := List.mem_singleton.mp hmem'
          omega
      · cases Option.some.inj h
        refine ⟨Nat.lt_succ_of_lt h1, h2, h3, ?_, h5⟩
        intro hmem
        rcases List.mem_cons.mp hmem with heq | hmem'
        · omega
        · exact h4 hmem'
  | resume i =>
    simp only [clientStep] at h
    split at h
    · next hi =>
      cases Option.some.inj h
      refine ⟨h1, h2, ?_, ?_, h5⟩
      · intro hmem
        exact h3 (List.mem_of_mem_erase hmem)
      · intro hmem
        rcases List.mem_cons.mp hmem with heq | hmem'
        · exact h3 (by rw [heq]; exact hi)
        · exact h4 hmem'
    · exact absurd h (by simp)
  | complete i =>
    simp only [clientStep] at h
    split at h
    · next hi =>
      cases Option.some.inj h
      refine ⟨h1, ?_, ?_, ?_, ?_⟩
      · intro hmem
        cases hq : s.callQueue with
        | nil => rw [hq] at hmem; exact absurd hmem (List.not_mem_nil x)
        | cons q qs =>
          rw [hq] at hmem
          exact h2 (by rw [hq]; exact List.mem_cons_of_mem q hmem)
      · intro hmem
        rcases List.mem_append.mp hmem with hmem' | hmem'
        · exact h3 hmem'
        · exact h2 (List.take_subset 1 s.callQueue hmem')
      · intro hmem
        exact h4 (List.mem_of_mem_erase hmem)
      · intro hmem
        rcases List.mem_cons.mp hmem with heq | hmem'
        · exact h4 (by rw [heq]; exact hi)
        · exact h5 hmem'
    · exact absurd h (by simp)
  | disconnect =>
    simp only [clientStep] at h
    split at h
    · cases Option.some.inj h
      exact ⟨h1, by simp, h3, h4, h5⟩
    · cases Option.some.inj h
      exact ⟨h1, h2, h3, h4, h5⟩

theorem runClient_dropped (max : Nat) (x : Nat) :
    ∀ (evts : List ClientEvent) (s s' : ClientState),
      DroppedCaller x s → runClient max s evts = some s' →
      DroppedCaller x s' := by
  intro evts
  induction evts with
  | nil =>
    intro s s' hd h
    cases Option.some.inj h
    exact hd
  | cons e es ih =>
    intro s s' hd h
    rw [runClient_cons] at h
    cases hm : clientStep max s e with
    | none => rw [hm] at h; exact absurd h (by simp)
    | some s1 =>
      rw [hm] at h
      exact ih s1 s' (clientStep_dropped max s s1 e x hm hd) h

/-- C1 (exhibit of the code's behavior): a caller queued on the concurrency
ceiling when `disconnect()` runs is dropped: `disconnect` clears
`callQueue`, so the caller's resolver is never invoked again, and under
every possible continuation of the system the caller never settles (neither
fulfills nor rejects), never resumes, and is in no queue — it hangs
silently instead of observing a "not connected" failure. -/
theorem disconnect_leaves_queued_caller_unsettled (max : Nat) (s : ClientState)
    (x : Nat) (hx : x ∈ s.callQueue) (hn : x < s.nextId)
    (h1 : x ∉ s.scheduled) (h2 : x ∉ s.inFlight) (h3 : x ∉ s.settled)
    (hc : s.connected = true) (evts : List ClientEvent) (s' : ClientState)
    (hrun : runClient max s (.disconnect :: evts) = some s') :
    x ∉ s'.settled ∧ x ∉ s'.inFlight ∧ x ∉ s'.scheduled ∧ x ∉ s'.callQueue := by
  have hstep : clientStep max s .disconnect =
      some { s with connected := false, pendingCalls := 0, callQueue := [] } := by
    simp only [clientStep]
    rw [if_pos hc]
  rw [runClient_cons, hstep] at hrun
  have hd : DroppedCaller x
      { s with connected := false, pendingCalls := 0, callQueue := [] } :=
    ⟨hn, by simp, h1, h2, h3⟩
  obtain ⟨_, hq, hsch, hinf, hset⟩ := runClient_dropped max x evts _ s' hd hrun
  exact ⟨hset, hinf, hsch, hq⟩

/-- C1 witness: a stdio client with caller 0 in flight and caller 1 queued;
after `disconnect`, caller 0 completes and a new caller arrives — caller 1
still never settles. -/
theorem disconnect_leaves_queued_caller_unsettled_witness :
    (1 ∈ ([1] : List Nat)) ∧
      runClient 1 ⟨true, 1, [1], [], [0], [], 2⟩
          [.disconnect, .complete 0, .arrive] =
        some ⟨false, 0, [], [], [], [2, 0], 3⟩ ∧
      (1 ∉ (⟨false, 0, [], [], [], [2, 0], 3⟩ : ClientState).settled ∧
        1 ∉ (⟨false, 0, [], [], [], [2, 0], 3⟩ : ClientState).inFlight ∧
        1 ∉ (⟨false, 0, [], [], [], [2, 0], 3⟩ : ClientState).scheduled ∧
        1 ∉ (⟨false, 0, [], [], [], [2, 0], 3⟩ : ClientState).callQueue) :=
  ⟨by decide, by decide,
    disconnect_leaves_queued_caller_unsettled 1 ⟨true, 1, [1], [], [0], [], 2⟩ 1
      (by decide) (by decide) (by decide) (by decide) (by decide) (by decide)
      [.complete 0, .arrive] ⟨false, 0, [], [], [], [2, 0], 3⟩ (by decide)⟩

/-! ### C4: concurrent connect deduplication -/

theorem runMgr_cons (s : MgrState) (e : MgrEvent) (es : List MgrEvent) :
    runMgr s (e :: es) =
      match mgrStep s e with
      | some s1 => runMgr s1 es
      | none => none := rfl

theorem get?_some_lt {α : Type} :
    ∀ (l : List α) (i : Nat) (a : α), l.get? i = some a → i < l.length := by
  intro l
  induction l with
  | nil => intro i a h; simp [List.get?] at h
  | cons c t ih =>
    intro i a h
    cases i with
    | zero => exact Nat.succ_pos _
    | succ i => exact Nat.succ_lt_succ (ih i a h)

theorem listSet_get?_self {α : Type} :
    ∀ (l : List α) (i : Nat) (a : α),
      i < l.length → (l.set i a).get? i = some a := by
  intro l
  induction l with
  | nil => intro i a h; simp at h
  | cons c t ih =>
    intro i a h
    cases i with
    | zero => rfl
    | succ i => exact ih i a (by simpa using h)

theorem listSet_get?_ne {α : Type} :
    ∀ (l : List α) (i j : Nat) (a : α),
      i ≠ j → (l.set i a).get? j = l.get? j := by
  intro l
  induction l with
  | nil => intro i j a _; rfl
  | cons c t ih =>
    intro i j a h
    cases i with
    | zero =>
      cases j with
      | zero => exact absurd rfl h
      | succ j => rfl
    | succ i =>
      cases j with
      | zero => rfl
      | succ j => exact ih i j a (fun hc => h (by rw [hc]))

theorem runMgr_append :
    ∀ (a : List MgrEvent) (s s' : MgrState) (b : List MgrEvent),
      runMgr s (a ++ b) = some s' →
      ∃ m, runMgr s a = some m ∧ runMgr m b = some s' := by
  intro a
  induction a with
  | nil => intro s s' b h; exact ⟨s, rfl, h⟩
  | cons e a' ih =>
    intro s s' b h
    rw [List.cons_append, runMgr_cons] at h
    cases hm : mgrStep s e with
    | none => rw [hm] at h; exact absurd h (by simp)
    | some s1 =>
      rw [hm] at h
      obtain ⟨m, hm1, hm2⟩ := ih s1 s' b h
      exact ⟨m, by rw [runMgr_cons, hm]; exact hm1, hm2⟩

theorem mgrStep_start (s s' : MgrState) (i : Nat)
    (h : mgrStep s (.startCall i) = some s')
    (hg : (s.connState = .disconnected ∧ s.connectPromise = none ∧
            s.attemptsStarted = 0) ∨
          (s.connState = .connecting ∧ s.connectPromise = some 0 ∧
            s.attemptsStarted = 1)) :
    (s'.connState = .connecting ∧ s'.connectPromise = some 0 ∧
        s'.attemptsStarted = 1) ∧
      s'.phases.get? i = some (.waiting 0) ∧
      ∀ j, s.phases.get? j = some (.waiting 0) →
        s'.phases.get? j = some (.waiting 0) := by
  simp only [mgrStep] at h
  split at h
  · next heq =>
    have hlen : i < s.phases.length := get?_some_lt _ _ _ heq
    have hnotconn : ¬ s.connState = .connected := by
      rcases hg with ⟨hc, _, _⟩ | ⟨hc, _, _⟩ <;> rw [hc] <;> simp
    rw [if_neg hnotconn] at h
    have hpers : ∀ (a : CallerPhase) j, s.phases.get? j = some (.waiting 0) →
        (s.phases.set i a).get? j = some (.waiting 0) := by
      intro a j hj
      have hij : i ≠ j := by
        intro hij
        rw [hij] at heq
        rw [heq] at hj
        exact absurd (Option.some.inj hj) (by simp)
      rw [listSet_get?_ne _ i j a hij]
      exact hj
    cases hp : s.connectPromise with
    | some a =>
      rw [hp] at h
      cases Option.some.inj h
      have ha : a = 0 := by
        rcases hg with ⟨_, hn, _⟩ | ⟨_, hs, _⟩
        · rw [hn] at hp; exact absurd hp (by simp)
        · rw [hs] at hp; exact (Option.some.inj hp).symm
      rcases hg with ⟨_, hn, _⟩ | ⟨hcn, hs, hone⟩
      · rw [hn] at hp; exact absurd hp (by simp)
      · subst ha
        exact ⟨⟨hcn, rfl, hone⟩, listSet_get?_self _ i _ hlen,
          fun j hj => hpers _ j hj⟩
    | none =>
      rw [hp] at h
      cases Option.some.inj h
      rcases hg with ⟨_, _, hzero⟩ | ⟨_, hs, _⟩
      · rw [hzero]
        exact ⟨⟨rfl, rfl, rfl⟩, listSet_get?_self _ i _ hlen,
          fun j hj => hpers _ j hj⟩
      · rw [hs] at hp; exact absurd hp (by simp)
  · exact absurd h (by simp)

theorem mgrStep_settle (s s' : MgrState) (ok : Bool)
    (h : mgrStep s (.settleAttempt ok) = some s')
    (hs0 : s.connectPromise = some 0) (h1 : s.attemptsStarted = 1) :
    s'.attemptsStarted = 1 ∧
      ∀ j, s.phases.get? j = some (.waiting 0) →
        s'.phases.get? j = some (.done ok) := by
  simp only [mgrStep] at h
  rw [hs0] at h
  cases Option.some.inj h
  refine ⟨h1, fun j hj => ?_⟩
  show (s.phases.map fun p => if p = .waiting 0 then .done ok else p).get? j =
    some (.done ok)
  rw [List.get?_map, hj]
  simp

theorem runMgr_starts :
    ∀ (evts : List MgrEvent) (s s' : MgrState),
      (∀ e ∈ evts, ∃ i, e = MgrEvent.startCall i) →
      runMgr s evts = some s' →
      ((s.connState = .disconnected ∧ s.connectPromise = none ∧
          s.attemptsStarted = 0) ∨
        (s.connState = .connecting ∧ s.connectPromise = some 0 ∧
          s.attemptsStarted = 1)) →
      (((s'.connState = .disconnected ∧ s'.connectPromise = none ∧
          s'.attemptsStarted = 0) ∨
        (s'.connState = .connecting ∧ s'.connectPromise = some 0 ∧
          s'.attemptsStarted = 1)) ∧
        (∀ j, s.phases.get? j = some (.waiting 0) →
          s'.phases.get? j = some (.waiting 0)) ∧
        (∀ i, MgrEvent.startCall i ∈ evts →
          s'.phases.get? i = some (.waiting 0))) := by
  intro evts
  induction evts with
  | nil =>
    intro s s' _ h hg
    cases Option.some.inj h
    exact ⟨hg, fun j hj => hj, fun i hi => absurd hi (List.not_mem_nil _)⟩
  | cons e es ih =>
    intro s s' honly hrun hg
    obtain ⟨i, rfl⟩ := honly e (List.mem_cons_self ..)
    rw [runMgr_cons] at hrun
    cases hm : mgrStep s (.startCall i) with
    | none => rw [hm] at hrun; exact absurd hrun (by simp)
    | some s1 =>
      rw [hm] at hrun
      obtain ⟨hmid, hget, hpers⟩ := mgrStep_start s s1 i hm hg
      obtain ⟨hg', hpers', hcov'⟩ :=
        ih s1 s' (fun e he => honly e (List.mem_cons_of_mem _ he)) hrun
          (Or.inr hmid)
      refine ⟨hg', fun j hj => hpers' j (hpers j hj), fun i' hi' => ?_⟩
      rcases List.mem_cons.mp hi' with heq | hmem
      · injection heq with hii
        rw [hii]
        exact hpers' i (hget)
      · exact hcov' i' hmem

/-- C4: N concurrent `connectServer` calls against the same disconnected
endpoint (all executing their synchronous prologue before the shared
attempt settles) start exactly one `doConnect` invocation, and every caller
ends up observing the outcome of that single shared attempt. -/
theorem connectServer_dedup_single_attempt (n : Nat) (evts : List MgrEvent)
    (ok : Bool) (s' : MgrState) (hn : 2 ≤ n)
    (honly : ∀ e ∈ evts, ∃ i, e = MgrEvent.startCall i)
    (hall : ∀ i, i < n → MgrEvent.startCall i ∈ evts)
    (hrun : runMgr (initMgr n) (evts ++ [.settleAttempt ok]) = some s') :
    s'.attemptsStarted = 1 ∧
      ∀ i, i < n → s'.phases.get? i = some (.done ok) := by
  obtain ⟨s1, hrun1, hrunSettle⟩ := runMgr_append evts (initMgr n) s' _ hrun
  have hstep : mgrStep s1 (.settleAttempt ok) = some s' := by
    rw [runMgr_cons] at hrunSettle
    cases hm : mgrStep s1 (.settleAttempt ok) with
    | none => rw [hm] at hrunSettle; exact absurd hrunSettle (by simp)
    | some s2 =>
      rw [hm] at hrunSettle
      cases Option.some.inj hrunSettle
      rfl
  obtain ⟨hg, _, hcov⟩ :=
    runMgr_starts evts (initMgr n) s1 honly hrun1 (Or.inl ⟨rfl, rfl, rfl⟩)
  have hmid : s1.connectPromise = some 0 ∧ s1.attemptsStarted = 1 := by
    rcases hg with ⟨_, hnone, _⟩ | ⟨_, hsome, hone⟩
    · simp only [mgrStep] at hstep
      rw [hnone] at hstep
      exact absurd hstep (by simp)
    · exact ⟨hsome, hone⟩
  obtain ⟨hatt, hdone⟩ := mgrStep_settle s1 s' ok hstep hmid.1 hmid.2
  exact ⟨hatt, fun i hi => hdone i (hcov i (hall i hi))⟩

/-- C4 witness: two concurrent callers against a disconnected endpoint;
one attempt is started, it settles successfully, and both callers observe
the success. -/
theorem connectServer_dedup_single_attempt_witness :
    (2 ≤ 2) ∧
      runMgr (initMgr 2)
          ([.startCall 0, .startCall 1] ++ [.settleAttempt true]) =
        some ⟨.connected, none, 1, [.done true, .done true]⟩ ∧
      ((⟨.connected, none, 1, [.done true, .done true]⟩ :
          MgrState).attemptsStarted = 1 ∧
        (⟨.connected, none, 1, [.done true, .done true]⟩ :
          MgrState).phases.get? 0 = some (.done true) ∧
        (⟨.connected, none, 1, [.done true, .done true]⟩ :
          MgrState).phases.get? 1 = some (.done true)) := by
  have honly : ∀ e ∈ ([MgrEvent.startCall 0, MgrEvent.startCall 1] :
      List MgrEvent), ∃ i, e = MgrEvent.startCall i := by
    intro e he
    rcases List.mem_cons.mp he with rfl | he'
    · exact ⟨0, rfl⟩
    · rcases List.mem_cons.mp he' with rfl | he''
      · exact ⟨1, rfl⟩
      · exact absurd he'' (List.not_mem_nil e)
  have H := connectServer_dedup_single_attempt 2
    [.startCall 0, .startCall 1] true
    ⟨.connected, none, 1, [.done true, .done true]⟩
    (by decide) honly (by decide) (by decide)
  exact ⟨by decide, by decide, H.1, H.2 0 (by decide), H.2 1 (by decide)⟩
